import Mathlib

/-!
Shallow embedding of the icon-conversion core of `fico.go` and verification
of the specification claims about it.

Bytes are modelled as natural numbers (values < 256 in every real input);
machine-integer casts from the Go source (`uint8`, `uint16`, `uint32`) are
modelled by explicit `% 256`, `% 65536`, `% 4294967296`.  Go slice/index
expressions that would panic on an out-of-range offset are modelled by
`Option`-returning reads (`none` = the Go runtime aborting the conversion);
Go's tolerant early `return bmp` paths keep returning the buffer built so far,
exactly as in the source.
-/

namespace Fico

/-! ### Byte-buffer helpers (little-endian reads and Go slicing) -/

/-- Little-endian `uint16` at offset `o` of byte list `d` (`binary.LittleEndian.Uint16`). -/
def le16At (d : List ℕ) (o : ℕ) : ℕ :=
  d.getD o 0 + 256 * d.getD (o+1) 0

/-- Little-endian `uint32` at offset `o` of byte list `d` (`binary.LittleEndian.Uint32`). -/
def le32At (d : List ℕ) (o : ℕ) : ℕ :=
  d.getD o 0 + 256 * d.getD (o+1) 0 + 65536 * d.getD (o+2) 0 + 16777216 * d.getD (o+3) 0

/-- Go slice expression `b[o : o+n]`: `none` models the bounds panic. -/
def sliceN (b : List ℕ) (o n : ℕ) : Option (List ℕ) :=
  if o + n ≤ b.length then some ((b.drop o).take n) else none

/-- Go slice expression `b[o : o+n]` with a possibly negative (int) offset. -/
def sliceZ (b : List ℕ) (o : ℤ) (n : ℕ) : Option (List ℕ) :=
  if 0 ≤ o ∧ o.toNat + n ≤ b.length then some ((b.drop o.toNat).take n) else none

/-- Checked little-endian `uint16` read (`binary.LittleEndian.Uint16(b[o:o+2])`). -/
def readU16 (b : List ℕ) (o : ℕ) : Option ℕ :=
  match sliceN b o 2 with
  | some s => some (le16At s 0)
  | none => none

/-- Checked little-endian `uint32` read (`binary.LittleEndian.Uint32(b[o:o+4])`). -/
def readU32 (b : List ℕ) (o : ℕ) : Option ℕ :=
  match sliceN b o 4 with
  | some s => some (le32At s 0)
  | none => none

/-- Sum of the first `i` elements of `l` (`(l.take i).sum`). -/
def sumTake (l : List ℕ) (i : ℕ) : ℕ := (l.take i).sum

/-- `abs(ws - w)` on Go ints, for natural inputs: absolute difference. -/
def adist (a b : ℕ) : ℕ := ((a : ℤ) - (b : ℤ)).natAbs

/-! ### Data structures from the source -/

/-- `type ICONDIR struct` (the field `Type` is named `Type'` because `Type` is a
Lean keyword). -/
structure ICONDIR where
  Reserved : ℕ
  Type' : ℕ
  Count : ℕ
deriving DecidableEq, Inhabited, Repr

/-- `type IconCommon struct`. -/
structure IconCommon where
  Width : ℕ
  Height : ℕ
  Color : ℕ
  Reserved : ℕ
  Planes : ℕ
  BitCount : ℕ
  BytesInRes : ℕ
deriving DecidableEq, Inhabited, Repr

/-- `type RESDIR struct`: an `IconCommon` plus the resource `ID`. -/
structure RESDIR where
  common : IconCommon
  ID : ℕ
deriving DecidableEq, Inhabited, Repr

/-- `type ICONDIRENTRY struct`: an `IconCommon` plus the payload `Offset`. -/
structure ICONDIRENTRY where
  common : IconCommon
  Offset : ℕ
deriving DecidableEq, Inhabited, Repr

/-- `type Resource struct`: slash-joined path and raw data of a PE resource. -/
structure Resource where
  Name : String
  Data : List ℕ
deriving DecidableEq, Inhabited, Repr

/-- `type Config struct` (Format, Width, Height, Index as Go ints). -/
structure Config where
  Format : String
  Width : ℤ
  Height : ℤ
  Index : ℤ
deriving DecidableEq, Inhabited, Repr

/-- An RGBA pixel as produced through `color.RGBA` / `image.RGBA`. -/
structure Pixel where
  R : ℕ
  G : ℕ
  B : ℕ
  A : ℕ
deriving DecidableEq, Inhabited, Repr

/-- An icns chunk as delivered by `icns.Parse`: 4-byte type tag plus payload. -/
structure IcnsIcon where
  Type' : List ℕ
  Data : List ℕ
deriving DecidableEq, Inhabited, Repr

/-! ### `icnsBRLDecode`: the proprietary run-length decompressor -/

/-- The loop of `icnsBRLDecode` from position `i`.  A control byte `< 0x80`
copies the next `control+1` literal bytes (discarded whole if they do not fit,
`break`); a control byte `≥ 0x80` replicates the following byte
`control - 0x80 + 3` times (`break` if there is no following byte). -/
def icnsBRLDecodeAux (data : List ℕ) (i : ℕ) : List ℕ :=
  if h : i < data.length then
    let b := data.getD i 0
    if b < 0x80 then
      let cnt := b + 1
      if data.length ≤ i + cnt then []
      else ((data.drop (i+1)).take cnt) ++ icnsBRLDecodeAux data (i + cnt + 1)
    else
      if data.length ≤ i + 1 then []
      else List.replicate (b - 0x80 + 3) (data.getD (i+1) 0) ++ icnsBRLDecodeAux data (i + 2)
  else []
termination_by data.length - i
decreasing_by
  · omega
  · omega

/-- `func icnsBRLDecode(data []byte) (ret []byte)`. -/
def icnsBRLDecode (data : List ℕ) : List ℕ := icnsBRLDecodeAux data 0

/-! ### `ICNS2ICO`: chunk filtering and container assembly -/

/-- The dropped (non-image) tags of the `switch` in `ICNS2ICO`:
`"TOC "`, `"icnV"`, `"name"`, `"info"`, `"sbtp"`, `"slct"`, `"\xFD\xD9\x2F\xA8"`
as byte lists. -/
def isInfoTag (t : List ℕ) : Bool :=
  t == [84, 79, 67, 32] || t == [105, 99, 110, 86] || t == [110, 97, 109, 101] ||
  t == [105, 110, 102, 111] || t == [115, 98, 116, 112] || t == [115, 108, 99, 116] ||
  t == [253, 217, 47, 168]

/-- The mask tags `"s8mk"`, `"l8mk"`, `"h8mk"`, `"t8mk"` (indexed into `maskMap`,
never appended to `newSet`). -/
def isMaskTag (t : List ℕ) : Bool :=
  t == [115, 56, 109, 107] || t == [108, 56, 109, 107] ||
  t == [104, 56, 109, 107] || t == [116, 56, 109, 107]

/-- The filter loop of `ICNS2ICO` building `newSet`: info tags are dropped and
mask tags are diverted to `maskMap`; everything else is retained in order. -/
def icnsFilter : List IcnsIcon → List IcnsIcon
  | [] => []
  | ic :: rest =>
    if isInfoTag ic.Type' then icnsFilter rest
    else if isMaskTag ic.Type' then icnsFilter rest
    else ic :: icnsFilter rest

/-- The `ICONDIR` header written by `ICNS2ICO` (line 437):
`ICONDIR{Type: 1, Count: uint16(len(iconSet))}` — note the count is taken from
the UNfiltered chunk list. -/
def icnsHeader (iconSet : List IcnsIcon) : ICONDIR :=
  ⟨0, 1, iconSet.length % 65536⟩

/-- The per-entry loop of `ICNS2ICO` over `newSet`, abstracted over the
per-chunk metadata `(w, h, s)` (width, height and payload byte length as
obtained from the PNG header / re-encoded buffer): starting at
`offset := 6 + len(newSet)*16`, each chunk appends one `ICONDIRENTRY` with
`Planes=1`, `BitCount=32` and the running `offset`, then advances by `s`. -/
def icnsAssembleAux : List (ℕ × ℕ × ℕ) → ℕ → List ICONDIRENTRY
  | [], _ => []
  | (w, h, s) :: rest, offset =>
    ⟨⟨w % 256, h % 256, 0, 0, 1, 32, s % 4294967296⟩, offset % 4294967296⟩ ::
      icnsAssembleAux rest (offset + s)

/-- Entry directory built by `ICNS2ICO` for the filtered chunks, given their
metadata list. -/
def icnsAssembleEntries (meta : List (ℕ × ℕ × ℕ)) : List ICONDIRENTRY :=
  icnsAssembleAux meta (6 + meta.length * 16)

/-- Directory entries of `ICNS2ICO` for a chunk list, with the external
PNG decode/encode step abstracted as a metadata oracle `f`. -/
def icnsEntriesFor (iconSet : List IcnsIcon) (f : IcnsIcon → ℕ × ℕ × ℕ) :
    List ICONDIRENTRY :=
  icnsAssembleEntries ((icnsFilter iconSet).map f)

/-! ### `Convert16BitToARGB` -/

/-- `func Convert16BitToARGB(value uint16, mask uint32) color.Color`.
`value` is a `uint16` (callers pass `binary.LittleEndian.Uint16`), `mask` a
`uint32`; the `uint8` casts of the `color.RGBA` literal are the `% 256`. -/
def Convert16BitToARGB (value mask : ℕ) : Pixel :=
  let r := (value >>> 7) &&& 0xF8
  let g := ((value <<< 6) % 65536) &&& 0xFC00
  let b := ((value <<< 19) % 4294967296) &&& 0xF80000
  let r2 := (r * ((mask >>> 16) &&& 0xFF)) >>> 8
  let g2 := (g * ((mask >>> 8) &&& 0xFF)) >>> 8
  let b2 := (b * (mask &&& 0xFF)) >>> 8
  ⟨r2 % 256, g2 % 256, b2 % 256, 0xFF⟩

/-! ### `CreateBmp32bppFromIconResData`: the legacy bitmap depth decoder -/

/-- `colorDataSize := ((((w * depth) + 7) >> 3) + 3) &^ 3) * h`; `x &^ 3`
clears the two low bits, i.e. rounds down to a multiple of 4, written
`x / 4 * 4`. -/
def colorDataSize (w depth h : ℕ) : ℕ :=
  ((w * depth + 7) >>> 3 + 3) / 4 * 4 * h

/-- `func GetMaskBit(data []byte, x, y, w, h int) uint32`; `none` models the
index panic when `byteIndex` is out of range. -/
def GetMaskBit (data : List ℕ) (x y w h : ℕ) : Option ℕ :=
  let maskDataRowSize := ((w + 31) >>> 5) * 4
  let byteIndex := maskDataRowSize * ((h - 1) - y) + (x >>> 3)
  let bitIndex := 7 - (x &&& 7)
  if byteIndex < data.length then
    if (data.getD byteIndex 0 >>> bitIndex) &&& 1 = 0 then some 0xFFFFFFFF
    else some 0
  else none

/-- `image.NewRGBA(image.Rect(0, 0, w, h))`: a zeroed w×h RGBA buffer,
row-major with top-left origin. -/
def newRGBA (w h : ℕ) : List Pixel := List.replicate (w * h) ⟨0, 0, 0, 0⟩

/-- `bmp.Set(x, y, p)` on an `image.RGBA`: in-bounds writes update the
row-major buffer, out-of-bounds writes are ignored. -/
def bmpSet (w h : ℕ) (buf : List Pixel) (x y : ℕ) (p : Pixel) : List Pixel :=
  if x < w ∧ y < h then buf.set (y * w + x) p else buf

/-- The iteration order of the nested loops
`for yy := h - 1; yy >= 0; yy-- { for xx := 0; xx < w; xx++ }`. -/
def pxOrder (w h : ℕ) : List (ℕ × ℕ) :=
  ((List.range h).reverse).flatMap fun yy => (List.range w).map fun xx => (yy, xx)

/-- The palette-building loop (`pal[i] = color.RGBA{...}` from 4 bytes
`b,g,r,a` at `src[i*4]`); `none` models the early `return bmp` when the next
entry does not fit. -/
def buildPalGo (src : List ℕ) : ℕ → ℕ → Option (List Pixel)
  | 0, _ => some []
  | rem+1, i =>
    if src.length ≤ i * 4 + 3 then none
    else
      match buildPalGo src rem (i+1) with
      | some rest =>
        some (⟨src.getD (i*4+2) 0, src.getD (i*4+1) 0, src.getD (i*4) 0,
               src.getD (i*4+3) 0⟩ :: rest)
      | none => none

/-- Loop body of `case 32`: reads `b,g,r,a` at `src[(yy*w*4)+(xx*4)]` and sets
pixel `(xx, yy)`; `return bmp` when the read would run past `src`. -/
def decode32Go (src : List ℕ) (w h : ℕ) : List (ℕ × ℕ) → List Pixel → List Pixel
  | [], buf => buf
  | (yy, xx) :: rest, buf =>
    if src.length ≤ yy*w*4 + xx*4 + 3 then buf
    else
      decode32Go src w h rest
        (bmpSet w h buf xx yy
          ⟨src.getD (yy*w*4 + xx*4 + 2) 0, src.getD (yy*w*4 + xx*4 + 1) 0,
           src.getD (yy*w*4 + xx*4) 0, src.getD (yy*w*4 + xx*4 + 3) 0⟩)

/-- Loop body of `case 24`: sequential pixel counter into 3-byte `b,g,r`
groups, each channel ANDed with the mask byte, alpha forced `0xFF`. -/
def decode24Go (src bitmask : List ℕ) (w h : ℕ) :
    List (ℕ × ℕ) → ℕ → List Pixel → Option (List Pixel)
  | [], _, buf => some buf
  | (yy, xx) :: rest, pixel, buf =>
    if src.length / 3 ≤ pixel then some buf
    else
      match GetMaskBit bitmask xx yy w h with
      | none => none
      | some mask =>
        decode24Go src bitmask w h rest (pixel + 1)
          (bmpSet w h buf xx yy
            ⟨src.getD (pixel*3) 0 &&& ((mask >>> 16) % 256),
             src.getD (pixel*3 + 1) 0 &&& ((mask >>> 8) % 256),
             src.getD (pixel*3 + 2) 0 &&& (mask % 256), 0xFF⟩)

/-- Loop body of `case 16`: sequential pixel counter into little-endian
2-byte values passed to `Convert16BitToARGB`. -/
def decode16Go (src bitmask : List ℕ) (w h : ℕ) :
    List (ℕ × ℕ) → ℕ → List Pixel → Option (List Pixel)
  | [], _, buf => some buf
  | (yy, xx) :: rest, pixel, buf =>
    if src.length / 2 ≤ pixel then some buf
    else
      match GetMaskBit bitmask xx yy w h with
      | none => none
      | some mask =>
        decode16Go src bitmask w h rest (pixel + 1)
          (bmpSet w h buf xx yy (Convert16BitToARGB (le16At src (pixel*2)) mask))

/-- Loop body of `case 8`: sequential counter reads the index byte at
`src[pixel]`; an index outside the palette yields the zero pixel. -/
def decode8Go (src : List ℕ) (w h : ℕ) (pal : List Pixel) :
    List (ℕ × ℕ) → ℕ → List Pixel → List Pixel
  | [], _, buf => buf
  | (yy, xx) :: rest, pixel, buf =>
    if src.length ≤ pixel then buf
    else
      let colorIndex := src.getD pixel 0
      let px := if colorIndex < pal.length then pal.getD colorIndex default
                else (⟨0, 0, 0, 0⟩ : Pixel)
      decode8Go src w h pal rest (pixel + 1) (bmpSet w h buf xx yy px)

/-- Loop body of `case 4`: index byte at `src[(yy*w/2)+(xx/2)]`, high nibble
for even `xx`, low nibble for odd `xx`. -/
def decode4Go (src : List ℕ) (w h : ℕ) (pal : List Pixel) :
    List (ℕ × ℕ) → List Pixel → List Pixel
  | [], buf => buf
  | (yy, xx) :: rest, buf =>
    if src.length ≤ yy*w/2 + xx/2 then buf
    else
      let ci0 := src.getD (yy*w/2 + xx/2) 0
      let colorIndex := if xx % 2 = 0 then ci0 >>> 4 else ci0 &&& 0x0F
      let px := if colorIndex < pal.length then pal.getD colorIndex default
                else (⟨0, 0, 0, 0⟩ : Pixel)
      decode4Go src w h pal rest (bmpSet w h buf xx yy px)

/-- Loop body of `case 1`: XOR and AND plane bits at `(yy*w+xx)/8` combine to
a 2-bit index into the 4-entry colour table. -/
def decode1Go (bitmaskXOR bitmaskAND : List ℕ) (w h : ℕ) (retColors : List Pixel) :
    List (ℕ × ℕ) → List Pixel → List Pixel
  | [], buf => buf
  | (yy, xx) :: rest, buf =>
    let xorIndex := (yy*w + xx) / 8
    let andIndex := (yy*w + xx) / 8
    if bitmaskXOR.length ≤ xorIndex ∨ bitmaskAND.length ≤ andIndex then buf
    else
      let xorBit := ((bitmaskXOR.getD xorIndex 0 >>> (7 - xx % 8)) &&& 0x01) <<< 1
      let andBit := (bitmaskAND.getD andIndex 0 >>> (7 - xx % 8)) &&& 0x01
      let value := xorBit ||| andBit
      decode1Go bitmaskXOR bitmaskAND w h retColors rest
        (bmpSet w h buf xx yy (retColors.getD value default))

/-- `func CreateBmp32bppFromIconResData(data []byte, depth, w, h, colors int) *image.RGBA`.
`none` models the Go panics of the initial `data[...:]` slicings on truncated
input; every other malformed case returns a (possibly partially filled) buffer
exactly as the source does. -/
def CreateBmp32bppFromIconResData (data : List ℕ) (depth w h colors : ℕ) :
    Option (List Pixel) :=
  let bmp := newRGBA w h
  let ignoreSize := 40
  let cds := colorDataSize w depth h
  match depth with
  | 32 =>
    if data.length < ignoreSize then none
    else some (decode32Go (data.drop ignoreSize) w h (pxOrder w h) bmp)
  | 24 =>
    if data.length < ignoreSize + cds then none
    else decode24Go (data.drop ignoreSize) (data.drop (ignoreSize + cds)) w h
           (pxOrder w h) 0 bmp
  | 16 =>
    if data.length < ignoreSize + cds then none
    else decode16Go (data.drop ignoreSize) (data.drop (ignoreSize + cds)) w h
           (pxOrder w h) 0 bmp
  | 8 =>
    if data.length < ignoreSize then none
    else
      match buildPalGo (data.drop ignoreSize) colors 0 with
      | none => some bmp
      | some pal => some (decode8Go (data.drop ignoreSize) w h pal (pxOrder w h) 0 bmp)
  | 4 =>
    if data.length < ignoreSize then none
    else
      match buildPalGo (data.drop ignoreSize) colors 0 with
      | none => some bmp
      | some pal => some (decode4Go (data.drop ignoreSize) w h pal (pxOrder w h) bmp)
  | 1 =>
    if data.length < ignoreSize + colors * 4 + cds then none
    else
      match buildPalGo (data.drop ignoreSize) 4 0 with
      | none => some bmp
      | some retColors =>
        some (decode1Go (data.drop (ignoreSize + colors * 4))
                (data.drop (ignoreSize + colors * 4 + cds)) w h retColors
                (pxOrder w h) bmp)
  | _ => some bmp

/-! ### `parseDir`: the PE resource tree walker -/

/-- `RT_ICON = "3/"`. -/
def RT_ICON : String := "3/"

/-- `RT_GROUP_ICON = "14/"`. -/
def RT_GROUP_ICON : String := "14/"

/-- The byte-pair loop of `parseDir` that builds the `[]uint16` name buffer:
`binary.LittleEndian.Uint16` of consecutive pairs, stopping before a dangling
byte. -/
def toU16List : List ℕ → List ℕ
  | a :: b :: rest => (a + 256 * b) :: toU16List rest
  | _ => []

/-- `utf16.Decode`: valid surrogate pairs combine, unpaired surrogates become
U+FFFD, everything else passes through. -/
def utf16DecodeNat : List ℕ → List ℕ
  | [] => []
  | [r] => if r < 0xD800 ∨ 0xE000 ≤ r then [r] else [0xFFFD]
  | r :: r2 :: rest2 =>
    if r < 0xD800 ∨ 0xE000 ≤ r then r :: utf16DecodeNat (r2 :: rest2)
    else if 0xD800 ≤ r ∧ r < 0xDC00 then
      if 0xDC00 ≤ r2 ∧ r2 < 0xE000 then
        ((((r - 0xD800) <<< 10) ||| (r2 - 0xDC00)) + 0x10000) :: utf16DecodeNat rest2
      else 0xFFFD :: utf16DecodeNat (r2 :: rest2)
    else 0xFFFD :: utf16DecodeNat (r2 :: rest2)

/-- `string(utf16.Decode(r))`: rune values to a string. -/
def runesToString (rs : List ℕ) : String := String.mk (rs.map Char.ofNat)

mutual

/-- `func parseDir(b []byte, p int, prefix string, virtual uint32) []*Resource`.
`none` models the Go slice panics on any offset outside `b` (a hard abort of
the whole walk, with no partial result); the `fuel` argument bounds the
recursion depth (Go's own limit is the call stack).  Subtrees whose
accumulated prefix is neither `"14/"`- nor `"3/"`-prefixed are pruned to `[]`
before any read. -/
def parseDir (b : List ℕ) (virt : ℕ) : ℕ → ℕ → String → Option (List Resource)
  | 0, _, _ => none
  | fuel+1, p, pfx =>
    if pfx != "" && !(pfx.startsWith RT_GROUP_ICON) && !(pfx.startsWith RT_ICON) then
      some []
    else
      match readU16 b (p+12), readU16 b (p+14) with
      | some numberOfNamedEntries, some numberOfIdEntries =>
        parseDirEntries b virt fuel p pfx (numberOfNamedEntries + numberOfIdEntries) 0
      | _, _ => none

/-- The `for i := 0; i < n; i++` entry loop of `parseDir`: named entries decode
a length-prefixed UTF-16 string, ID entries use the decimal ID; a set high bit
of the data offset recurses into a subdirectory, otherwise the
`IMAGE_RESOURCE_DATA_ENTRY` leaf is read and its `offset - virtual` slice of
`b` becomes the resource data. -/
def parseDirEntries (b : List ℕ) (virt : ℕ) :
    ℕ → ℕ → String → ℕ → ℕ → Option (List Resource)
  | 0, _, _, _, _ => none
  | fuel+1, p, pfx, n, i =>
    if n ≤ i then some []
    else
      match readU32 b (8*i + p + 16), readU32 b (8*i + p + 16 + 4) with
      | some name, some offsetToData =>
        match (if name &&& 0x80000000 > 0 then
                 match readU16 b (name &&& 0x7FFFFFFF) with
                 | some len =>
                   match sliceN b ((name &&& 0x7FFFFFFF) + 2) (len * 2) with
                   | some c => some (pfx ++ runesToString (utf16DecodeNat (toU16List c)))
                   | none => none
                 | none => none
               else some (pfx ++ toString name)) with
        | none => none
        | some path =>
          if offsetToData &&& 0x80000000 > 0 then
            match parseDir b virt fuel (offsetToData &&& 0x7FFFFFFF) (path ++ "/") with
            | some l =>
              match parseDirEntries b virt fuel p pfx n (i+1) with
              | some rest => some (l ++ rest)
              | none => none
            | none => none
          else
            match readU32 b offsetToData, readU32 b (offsetToData + 4) with
            | some offset, some len =>
              match sliceZ b ((offset : ℤ) - (virt : ℤ)) len with
              | some d =>
                match parseDirEntries b virt fuel p pfx n (i+1) with
                | some rest => some (⟨path, d⟩ :: rest)
                | none => none
              | none => none
            | _, _ => none
      | _, _ => none

end

/-! ### `writeICO`: the target-dimension selection heuristic -/

/-- The selection loop of `writeICO` when `cfg.Width > 0 && cfg.Height > 0`:
state `(i, m, wdiff, hdiff, bm)`; an entry is considered when its `BitCount`
is at least the running maximum `bm` (which it then replaces), its true
dimensions come from the stored bytes or (when a stored dimension is 0) from
decoding the payload, abstracted as the oracle `dims`; it is selected when
both its width and height distances are strictly below the best so far. -/
def selGo (dims : ℕ → ℕ × ℕ) (W H : ℕ) :
    List ICONDIRENTRY → ℕ → ℕ → ℕ → ℕ → ℕ → ℕ
  | [], _, m, _, _, _ => m
  | e :: rest, i, m, wdiff, hdiff, bm =>
    if bm ≤ e.common.BitCount then
      let ws := if e.common.Width = 0 ∨ e.common.Height = 0 then (dims i).1
                else e.common.Width
      let hs := if e.common.Width = 0 ∨ e.common.Height = 0 then (dims i).2
                else e.common.Height
      if adist ws W < wdiff ∧ adist hs H < hdiff then
        selGo dims W H rest (i+1) i (adist ws W) (adist hs H) e.common.BitCount
      else selGo dims W H rest (i+1) m wdiff hdiff e.common.BitCount
    else selGo dims W H rest (i+1) m wdiff hdiff bm

/-- Index `m` selected by `writeICO` for target dimensions `(W, H)`:
initial state `m=0, wdiff=hdiff=0xFFFFF, bm=0`. -/
def selectEntry (entries : List ICONDIRENTRY) (dims : ℕ → ℕ × ℕ) (W H : ℕ) : ℕ :=
  selGo dims W H entries 0 0 0xFFFFF 0xFFFFF 0

/-! ### `PE2ICO`: group-directory parsing and container assembly -/

/-- The `binary.Read` loop filling `gid.Entries`: consecutive 14-byte `RESDIR`
records; once the reader is exhausted the remaining records stay zero-valued
(the `binary.Read` errors are ignored by the source). -/
def readRESDIRs (d : List ℕ) : ℕ → List RESDIR
  | 0 => []
  | c+1 =>
    if 14 ≤ d.length then
      ⟨⟨d.getD 0 0, d.getD 1 0, d.getD 2 0, d.getD 3 0, le16At d 4, le16At d 6,
        le32At d 8⟩, le16At d 12⟩ :: readRESDIRs (d.drop 14) c
    else List.replicate (c+1) default

/-- Reading a `GRPICONDIR` from a group resource's bytes: a 6-byte `ICONDIR`
then `Count` records of 14 bytes; a short header leaves the zero value
(`binary.Read`'s error is ignored by the source). -/
def readGRPICONDIR (d : List ℕ) : ICONDIR × List RESDIR :=
  if 6 ≤ d.length then
    let id : ICONDIR := ⟨le16At d 0, le16At d 2, le16At d 4⟩
    (id, readRESDIRs (d.drop 6) id.Count)
  else (⟨0, 0, 0⟩, [])

/-- The entry/offset loop of `PE2ICO` (lines 640–653): `offset` starts at
`binary.Size(ICONDIR) + count*binary.Size(ICONDIRENTRY) = 6 + 16*count`; an
entry whose `ID` resolves in `idmap` copies its `IconCommon`, records the
running offset (cast to `uint32`) and appends its data; an unresolved `ID`
leaves the zero-valued `ICONDIRENTRY` and appends nothing. -/
def peAssembleAux : List RESDIR → (ℕ → Option (List ℕ)) → ℕ →
    List ICONDIRENTRY × List (List ℕ)
  | [], _, _ => ([], [])
  | e :: rest, idmap, offset =>
    match idmap e.ID with
    | some r =>
      let p := peAssembleAux rest idmap (offset + r.length)
      (⟨e.common, offset % 4294967296⟩ :: p.1, r :: p.2)
    | none =>
      let p := peAssembleAux rest idmap offset
      (default :: p.1, p.2)

/-- Entries and payload list assembled by `PE2ICO` from the parsed group
directory and the `RT_ICON` id map. -/
def peAssembleEntries (ents : List RESDIR) (idmap : ℕ → Option (List ℕ)) :
    List ICONDIRENTRY × List (List ℕ) :=
  peAssembleAux ents idmap (6 + ents.length * 16)

/-- Outcome of `PE2ICO` after the resources have been collected: either the
default-artwork fallback (`defaultICO`) or a full container handed to
`writeICO`. -/
inductive PEOut where
  | fallback : PEOut
  | container : ICONDIR → List ICONDIRENTRY → List (List ℕ) → PEOut
deriving DecidableEq, Repr

/-- `PE2ICO` from line 616 on, after `parseDir` has produced the group
resources `grpIcons` (in order) and the icon `idmap`: a non-negative
`cfg.Index` (clamped to 0 when out of range) selects and parses one group;
otherwise `gid` keeps its zero value.  A zero `gid.Count` falls back to
`defaultICO`; otherwise the container is assembled. -/
def PE2ICOCore (cfg : Option Config) (grpIcons : List (List ℕ))
    (idmap : ℕ → Option (List ℕ)) : PEOut :=
  if grpIcons.length = 0 then .fallback
  else
    let gid :=
      match cfg with
      | some c =>
        if 0 ≤ c.Index then
          let idx := if (grpIcons.length : ℤ) ≤ c.Index then 0 else c.Index.toNat
          readGRPICONDIR (grpIcons.getD idx [])
        else (⟨0, 0, 0⟩, [])
      | none => (⟨0, 0, 0⟩, [])
    if gid.1.Count = 0 then .fallback
    else
      let p := peAssembleEntries gid.2 idmap
      .container gid.1 p.1 p.2

/-! ### The claimed container-offset invariant (the spec's words) -/

/-- The offset invariant exactly as the specification states it for a written
container of `n` directory entries with payload byte lengths `sizes`:
every offset points past the 6-byte header plus the `16*n` directory bytes,
offsets are strictly increasing, and each equals that base plus the running
sum of the preceding payload lengths. -/
def containerOffsetsOK (n : ℕ) (entries : List ICONDIRENTRY) (sizes : List ℕ) : Prop :=
  entries.length = n ∧
  (∀ i, i < n → 6 + 16 * n ≤ (entries.getD i default).Offset) ∧
  (∀ i, i < n → (entries.getD i default).Offset = 6 + 16 * n + sumTake sizes i) ∧
  (∀ j, j < n → ∀ i, i < j → (entries.getD i default).Offset < (entries.getD j default).Offset)

/-- Per-entry effective dimensions with an explicit oracle index offset `i`
(used to state facts about suffixes of the entry list). -/
def effDimsAt (l : List ICONDIRENTRY) (dims : ℕ → ℕ × ℕ) (i j : ℕ) : ℕ × ℕ :=
  let e := l.getD j default
  if e.common.Width = 0 ∨ e.common.Height = 0 then dims (i + j)
  else (e.common.Width, e.common.Height)

/-- The effective dimensions the selection loop computes for entry `j` of the
full list: stored width/height, or the decoded payload dimensions (oracle
`dims j`) when a stored one is 0. -/
def effDims (entries : List ICONDIRENTRY) (dims : ℕ → ℕ × ℕ) (j : ℕ) : ℕ × ℕ :=
  effDimsAt entries dims 0 j

/-- Data `d` is an in-bounds slice of buffer `b`. -/
def dataInBounds (b d : List ℕ) : Prop := ∃ o n, sliceZ b o n = some d

/-! ### Concrete test vectors for the claims -/

/-- An icns chunk list with one retained image chunk (tag `"is32"`) and one
filtered `"TOC "` chunk. -/
def c1Input : List IcnsIcon := [⟨[105, 115, 51, 50], [0]⟩, ⟨[84, 79, 67, 32], []⟩]

/-- A one-entry icon group directory referencing icon ID 7. -/
def c2Ents : List RESDIR := [⟨⟨16, 16, 0, 0, 1, 32, 100⟩, 7⟩]

/-- A resource section: one root directory with a single ID entry `3` whose
data entry points at the two bytes `[7, 9]` stored at offset 32
(`virtual = 0`). -/
def B34 : List ℕ :=
  [0, 0, 0, 0, 0, 0, 0, 0, 0, 0, 0, 0, 0, 0, 1, 0,
   3, 0, 0, 0, 24, 0, 0, 0,
   32, 0, 0, 0, 2, 0, 0, 0,
   7, 9]

/-- Two 32-bit entries: index 0 matches the target width only (16×32), index 1
matches the target exactly (16×16). -/
def c5CEntries : List ICONDIRENTRY :=
  [⟨⟨16, 32, 0, 0, 1, 32, 0⟩, 0⟩, ⟨⟨16, 16, 0, 0, 1, 32, 0⟩, 0⟩]

/-- Two entries: index 0 differs from the 16×16 target in both dimensions,
index 1 matches it exactly at the maximal bit depth. -/
def c5WEntries : List ICONDIRENTRY :=
  [⟨⟨10, 10, 0, 0, 1, 4, 0⟩, 0⟩, ⟨⟨16, 16, 0, 0, 1, 32, 0⟩, 0⟩]

/-- A constant dimension oracle (its value is irrelevant for stored-size
entries). -/
def dims0 : ℕ → ℕ × ℕ := fun _ => (0, 0)

/-- A 32bpp 1×2 icon bitmap: 40-byte header, stored row 0 = bytes `1,2,3,4`
(b,g,r,a), stored row 1 = bytes `5,6,7,8`. -/
def c7Input : List ℕ := List.replicate 40 0 ++ [1, 2, 3, 4, 5, 6, 7, 8]

/-- An 8bpp 1×1 icon bitmap with a one-entry colour table `b,g,r,a =
10,20,30,40` followed by the single pixel-index byte `0`. -/
def c8Input : List ℕ := List.replicate 40 0 ++ [10, 20, 30, 40, 0]

/-! ## Verification of the claims -/

/-- C1: the claim states that the emitted container's header count field
equals the number of directory entries that follow it (the number of chunks
retained after filtering).  This is false of the code: line 437 writes
`Count: uint16(len(iconSet))` from the UNfiltered chunk list, while one
directory entry is emitted per FILTERED chunk.  On a chunk list with one
image chunk and one `"TOC "` chunk the header says 2 but only 1 entry
follows, for every metadata oracle. -/
theorem c1_count_mismatch :
    (icnsHeader c1Input).Count = 2 ∧
    (icnsEntriesFor c1Input (fun _ => (16, 16, 100))).length = 1 ∧
    (icnsHeader c1Input).Count ≠ (icnsEntriesFor c1Input (fun _ => (16, 16, 100))).length := by
  decide

/-- C7: the claim states the 32bpp decoder flips rows bottom-to-top (output
row `y` reads stored row `h-1-y`).  The code's `case 32` reads
`src[(yy*w*4)+(xx*4)]` and writes `bmp.Set(xx, yy, ...)` with the SAME `yy`,
so stored row 0 lands in output row 0: on a 1×2 bitmap whose stored rows are
`1,2,3,4` and `5,6,7,8`, output row 0 is RGBA `(3,2,1,4)` (stored row 0, in
B,G,R,A order), not the claimed `(7,6,5,8)` from stored row `h-1-0 = 1`. -/
theorem c7_no_flip :
    CreateBmp32bppFromIconResData c7Input 32 1 2 0 =
      some [⟨3, 2, 1, 4⟩, ⟨7, 6, 5, 8⟩] ∧
    ((⟨3, 2, 1, 4⟩ : Pixel) ≠ ⟨7, 6, 5, 8⟩) := by
  decide

/-- C8: the claim states the 8bpp pixel-index bytes are read from offset
`colors*4` past the 40-byte header, i.e. after the colour table.  The code's
`case 8` reads `src[pixel]` with `pixel` starting at 0, i.e. from the start of
the colour table itself: on a 1×1 8bpp bitmap with one palette entry
`b,g,r,a = 10,20,30,40` and index byte `0` at offset `colors*4 = 4`, the
claim demands `pal[0] = (30,20,10,40)` but the code reads index `src[0] = 10`,
which is out of palette range and yields the zero pixel. -/
theorem c8_palette_offset :
    CreateBmp32bppFromIconResData c8Input 8 1 1 1 = some [⟨0, 0, 0, 0⟩] ∧
    (c8Input.drop 40).getD (1 * 4) 0 = 0 ∧
    ((⟨0, 0, 0, 0⟩ : Pixel) ≠ ⟨30, 20, 10, 40⟩) := by
  decide

/-- C6: the claim states that a negative `groupIndex` means "all groups" and
the conversion emits icons drawn from all groups.  In the code a negative
`cfg.Index` skips the group-parsing block entirely, so `gid.Count` stays 0
and `PE2ICO` returns the default-artwork fallback for EVERY input with at
least one icon group. -/
theorem c6_negative_index_fallback (c : Config) (grpIcons : List (List ℕ))
    (idmap : ℕ → Option (List ℕ)) (hneg : c.Index < 0) (hne : grpIcons ≠ []) :
    PE2ICOCore (some c) grpIcons idmap = .fallback := by
  have h0 : ¬ grpIcons.length = 0 := by simpa [List.length_eq_zero] using hne
  have h1 : ¬ (0 ≤ c.Index) := by omega
  simp [PE2ICOCore, h0, h1]

/-- Witness for C6 at a concrete input: `Index = -1` with one non-empty
group resource falls back to the default artwork. -/
theorem c6_witness :
    PE2ICOCore (some ⟨"", 0, 0, -1⟩) [[1]] (fun _ => none) = .fallback :=
  c6_negative_index_fallback ⟨"", 0, 0, -1⟩ [[1]] (fun _ => none) (by decide) (by decide)

/-- C4: run-length semantics of `icnsBRLDecode`.  A control byte `< 0x80`
whose `control+1` literal bytes fit copies them verbatim and continues after
them; a control byte `≥ 0x80` with a following byte replicates it
`control - 0x80 + 3` times and continues; `[0x00, 0xAA]` decodes to `[0xAA]`,
`[0x83, 0x42]` to six `0x42` bytes, and a truncated repeat control byte
yields the empty result. -/
theorem c4_brl_semantics :
    (∀ (data : List ℕ) i, i < data.length → data.getD i 0 < 0x80 →
       i + (data.getD i 0 + 1) < data.length →
       icnsBRLDecodeAux data i =
         (data.drop (i+1)).take (data.getD i 0 + 1) ++
           icnsBRLDecodeAux data (i + (data.getD i 0 + 1) + 1)) ∧
    (∀ (data : List ℕ) i, i < data.length → 0x80 ≤ data.getD i 0 →
       i + 1 < data.length →
       icnsBRLDecodeAux data i =
         List.replicate (data.getD i 0 - 0x80 + 3) (data.getD (i+1) 0) ++
           icnsBRLDecodeAux data (i + 2)) ∧
    icnsBRLDecode [0x00, 0xAA] = [0xAA] ∧
    icnsBRLDecode [0x83, 0x42] = [0x42, 0x42, 0x42, 0x42, 0x42, 0x42] ∧
    icnsBRLDecode [0x83] = [] := by
  refine ⟨?_, ?_, ?_, ?_, ?_⟩
  · intro data i h1 h2 h3
    rw [icnsBRLDecodeAux]
    rw [dif_pos h1, if_pos h2, if_neg (by omega : ¬ data.length ≤ i + (data.getD i 0 + 1))]
  · intro data i h1 h2 h3
    rw [icnsBRLDecodeAux]
    rw [dif_pos h1, if_neg (by omega : ¬ data.getD i 0 < 0x80),
        if_neg (by omega : ¬ data.length ≤ i + 1)]
  · simp [icnsBRLDecode, icnsBRLDecodeAux]
  · simp [icnsBRLDecode, icnsBRLDecodeAux]
  · simp [icnsBRLDecode, icnsBRLDecodeAux]

/-- Witness for C4 at concrete inputs: a fitting literal run and a repeat
run, with every hypothesis discharged concretely. -/
theorem c4_witness :
    icnsBRLDecodeAux [0, 170] 0 =
      ([0, 170].drop 1).take ([0, 170].getD 0 0 + 1) ++
        icnsBRLDecodeAux [0, 170] (0 + ([0, 170].getD 0 0 + 1) + 1) ∧
    icnsBRLDecodeAux [131, 66] 0 =
      List.replicate ([131, 66].getD 0 0 - 0x80 + 3) ([131, 66].getD 1 0) ++
        icnsBRLDecodeAux [131, 66] 2 :=
  ⟨c4_brl_semantics.1 [0, 170] 0 (by decide) (by decide) (by decide),
   c4_brl_semantics.2.1 [131, 66] 0 (by decide) (by decide) (by decide)⟩

/-- Every byte emitted by the run-length decoder loop is a byte of its input
(the decoder never reads outside the input buffer). -/
theorem mem_icnsBRLDecodeAux (data : List ℕ) :
    ∀ i x, x ∈ icnsBRLDecodeAux data i → x ∈ data := by
  have key : ∀ k i x, data.length - i ≤ k → x ∈ icnsBRLDecodeAux data i → x ∈ data := by
    intro k
    induction k with
    | zero =>
      intro i x hk hx
      rw [icnsBRLDecodeAux, dif_neg (by omega : ¬ i < data.length)] at hx
      simp at hx
    | succ k ih =>
      intro i x hk hx
      rw [icnsBRLDecodeAux] at hx
      by_cases h1 : i < data.length
      · rw [dif_pos h1] at hx
        by_cases h2 : data.getD i 0 < 0x80
        · rw [if_pos h2] at hx
          by_cases h3 : data.length ≤ i + (data.getD i 0 + 1)
          · rw [if_pos h3] at hx; simp at hx
          · rw [if_neg h3] at hx
            rcases List.mem_append.1 hx with hx | hx
            · exact List.drop_subset _ _ (List.take_subset _ _ hx)
            · exact ih (i + (data.getD i 0 + 1) + 1) x (by omega) hx
        · rw [if_neg h2] at hx
          by_cases h3 : data.length ≤ i + 1
          · rw [if_pos h3] at hx; simp at hx
          · rw [if_neg h3] at hx
            rcases List.mem_append.1 hx with hx | hx
            · rw [List.eq_of_mem_replicate hx, List.getD_eq_getElem _ _ (by omega : i + 1 < data.length)]
              exact List.getElem_mem _
            · exact ih (i + 2) x (by omega) hx
      · rw [dif_neg h1] at hx; simp at hx
  intro i x hx
  exact key (data.length - i) i x le_rfl hx

/-- C10: a trailing literal run whose declared count extends past the end of
the input contributes no bytes at all (the loop `break`s before copying), so
`[0x02, 0xAA]` decodes to the empty output; and every output byte of the
decoder is a byte of its input, so the decoder never reads outside the
input. -/
theorem c10_truncation :
    (∀ (data : List ℕ) i, i < data.length → data.getD i 0 < 0x80 →
       data.length ≤ i + (data.getD i 0 + 1) →
       icnsBRLDecodeAux data i = []) ∧
    icnsBRLDecode [0x02, 0xAA] = [] ∧
    (∀ (data : List ℕ) x, x ∈ icnsBRLDecode data → x ∈ data) := by
  refine ⟨?_, ?_, ?_⟩
  · intro data i h1 h2 h3
    rw [icnsBRLDecodeAux, dif_pos h1, if_pos h2, if_pos h3]
  · simp [icnsBRLDecode, icnsBRLDecodeAux]
  · intro data x hx
    exact mem_icnsBRLDecodeAux data 0 x hx

/-- Witness for C10 at concrete inputs: the truncated literal run
`[0x02, 0xAA]` yields `[]`, and membership at a decodable input. -/
theorem c10_witness :
    icnsBRLDecodeAux [2, 170] 0 = [] ∧ (170 ∈ icnsBRLDecode [0, 170] → 170 ∈ [0, 170]) :=
  ⟨c10_truncation.1 [2, 170] 0 (by decide) (by decide) (by decide),
   fun h => c10_truncation.2.2 [0, 170] 170 h⟩

theorem sumTake_cons_succ (a : ℕ) (l : List ℕ) (i : ℕ) :
    sumTake (a :: l) (i + 1) = a + sumTake l i := by
  simp [sumTake]

theorem sumTake_le_sum (l : List ℕ) (i : ℕ) : sumTake l i ≤ l.sum := by
  unfold sumTake
  conv_rhs => rw [← List.take_append_drop i l]
  rw [List.sum_append]
  omega

theorem sumTake_succ_of_lt (l : List ℕ) (i : ℕ) (h : i < l.length) :
    sumTake l (i + 1) = sumTake l i + l.getD i 0 := by
  induction l generalizing i with
  | nil => simp at h
  | cons a l ih =>
    cases i with
    | zero => simp [sumTake]
    | succ i =>
      rw [sumTake_cons_succ, sumTake_cons_succ, ih i (by simpa using h),
          List.getD_cons_succ]
      omega

theorem sumTake_strictMonoOn (l : List ℕ) (hpos : ∀ x ∈ l, 0 < x) :
    ∀ i j, i < j → j ≤ l.length → sumTake l i < sumTake l j := by
  have step : ∀ i, i < l.length → sumTake l i < sumTake l (i + 1) := by
    intro i h
    rw [sumTake_succ_of_lt l i h]
    have hm : l.getD i 0 ∈ l := by
      rw [List.getD_eq_getElem _ _ h]
      exact List.getElem_mem _
    have := hpos _ hm
    omega
  intro i j hij hj
  induction j with
  | zero => omega
  | succ j ihj =>
    rcases Nat.lt_succ_iff_lt_or_eq.1 hij with h | h
    · exact lt_trans (ihj h (by omega)) (step j (by omega))
    · subst h; exact step i (by omega)

/-- The container offset invariant in the claimed form follows whenever the
offsets have the running-sum-mod-2^32 shape, the payloads are non-empty and
the total stays below 2^32. -/
theorem offsetsOK_of_form (n : ℕ) (entries : List ICONDIRENTRY) (sizes : List ℕ)
    (hlen : entries.length = n) (hslen : sizes.length = n)
    (hoff : ∀ i, i < n →
      (entries.getD i default).Offset = (6 + 16 * n + sumTake sizes i) % 4294967296)
    (hpos : ∀ x ∈ sizes, 0 < x)
    (hbound : 6 + 16 * n + sizes.sum < 4294967296) :
    containerOffsetsOK n entries sizes := by
  have hmod : ∀ i, i < n → (entries.getD i default).Offset = 6 + 16 * n + sumTake sizes i := by
    intro i hi
    rw [hoff i hi, Nat.mod_eq_of_lt]
    have := sumTake_le_sum sizes i
    omega
  refine ⟨hlen, ?_, hmod, ?_⟩
  · intro i hi; rw [hmod i hi]; omega
  · intro j hj i hij
    rw [hmod i (by omega), hmod j hj]
    have := sumTake_strictMonoOn sizes hpos i j hij (by omega)
    omega

theorem icnsAssembleAux_length (meta : List (ℕ × ℕ × ℕ)) :
    ∀ off, (icnsAssembleAux meta off).length = meta.length := by
  induction meta with
  | nil => intro off; rfl
  | cons x rest ih =>
    intro off
    obtain ⟨w, h, s⟩ := x
    simp [icnsAssembleAux, ih]

theorem icnsAssembleAux_offset (meta : List (ℕ × ℕ × ℕ)) :
    ∀ off i, i < meta.length →
      ((icnsAssembleAux meta off).getD i default).Offset =
        (off + sumTake (meta.map fun x => x.2.2) i) % 4294967296 := by
  induction meta with
  | nil => intro off i hi; simp at hi
  | cons x rest ih =>
    intro off i hi
    obtain ⟨w, h, s⟩ := x
    cases i with
    | zero => simp [icnsAssembleAux, sumTake]
    | succ i =>
      have hi' : i < rest.length := by simpa using hi
      simp only [icnsAssembleAux, List.getD_cons_succ, List.map_cons]
      rw [ih (off + s) i hi', sumTake_cons_succ]
      congr 1
      omega

theorem peAssembleAux_resolved (ents : List RESDIR) (idmap : ℕ → Option (List ℕ))
    (hall : ∀ e ∈ ents, ∃ d, idmap e.ID = some d) :
    ∀ off,
      (peAssembleAux ents idmap off).1.length = ents.length ∧
      (peAssembleAux ents idmap off).2.length = ents.length ∧
      (∀ d ∈ (peAssembleAux ents idmap off).2, ∃ e ∈ ents, idmap e.ID = some d) ∧
      (∀ i, i < ents.length →
        ((peAssembleAux ents idmap off).1.getD i default).Offset =
          (off + sumTake ((peAssembleAux ents idmap off).2.map List.length) i) % 4294967296) := by
  induction ents with
  | nil =>
    intro off
    refine ⟨rfl, rfl, by simp [peAssembleAux], ?_⟩
    intro i hi; simp at hi
  | cons e rest ih =>
    intro off
    obtain ⟨d, hd⟩ := hall e (by simp)
    have hall' : ∀ e' ∈ rest, ∃ d', idmap e'.ID = some d' := fun e' he' =>
      hall e' (by simp [he'])
    have ihs := ih hall' (off + d.length)
    simp only [peAssembleAux, hd]
    refine ⟨by simp [ihs.1], by simp [ihs.2.1], ?_, ?_⟩
    · intro d' hd'
      rcases List.mem_cons.1 hd' with h | h
      · exact ⟨e, by simp, by rw [hd, h]⟩
      · obtain ⟨e', he', hee⟩ := ihs.2.2.1 d' h
        exact ⟨e', by simp [he'], hee⟩
    · intro i hi
      cases i with
      | zero => simp [sumTake]
      | succ i =>
        have hi' : i < rest.length := by simpa using hi
        simp only [List.getD_cons_succ, List.map_cons]
        rw [ihs.2.2.2 i hi', sumTake_cons_succ]
        congr 1
        omega

/-- C2 counterexample: a one-entry group directory whose icon ID does not
resolve in the id map.  The code leaves the zero-valued `ICONDIRENTRY`, so
its offset is 0 — not past the `6 + 16*1 = 22` header+directory bytes — and
the claimed invariant fails. -/
theorem c2_counterexample :
    ((peAssembleEntries c2Ents (fun _ => none)).1.getD 0 default).Offset = 0 ∧
    ¬ containerOffsetsOK 1 (peAssembleEntries c2Ents (fun _ => none)).1
        ((peAssembleEntries c2Ents (fun _ => none)).2.map List.length) := by
  have h0 : ((peAssembleEntries c2Ents (fun _ => none)).1.getD 0 default).Offset = 0 := by
    decide
  refine ⟨h0, fun h => ?_⟩
  have h1 := h.2.1 0 (by omega)
  omega

/-- C2 (amended): in every full container the assembler writes, PROVIDED
every group entry's ID resolves to a non-empty resource (PE path) /
every payload is non-empty (icns path) and the total size stays below 2^32,
each directory entry's offset points past the 6-byte header plus all
16-byte directory records, the offsets are strictly increasing, and each
equals that base plus the running sum of the preceding payload byte
lengths.  (An unresolved ID instead leaves a zero-filled entry, see the
counterexample.) -/
theorem c2_amended :
    (∀ (ents : List RESDIR) (idmap : ℕ → Option (List ℕ)),
      (∀ e ∈ ents, ∃ d, idmap e.ID = some d ∧ d ≠ []) →
      6 + 16 * ents.length + ((peAssembleEntries ents idmap).2.map List.length).sum
          < 4294967296 →
      containerOffsetsOK ents.length (peAssembleEntries ents idmap).1
        ((peAssembleEntries ents idmap).2.map List.length)) ∧
    (∀ meta : List (ℕ × ℕ × ℕ),
      (∀ x ∈ meta, 0 < x.2.2) →
      6 + 16 * meta.length + (meta.map fun x => x.2.2).sum < 4294967296 →
      containerOffsetsOK meta.length (icnsAssembleEntries meta)
        (meta.map fun x => x.2.2)) := by
  constructor
  · intro ents idmap hall hbound
    have hall' : ∀ e ∈ ents, ∃ d, idmap e.ID = some d := fun e he =>
      (hall e he).imp fun d hd => hd.1
    have hs := peAssembleAux_resolved ents idmap hall' (6 + ents.length * 16)
    refine offsetsOK_of_form _ _ _ hs.1 (by simp [peAssembleEntries, hs.2.1]) ?_ ?_ hbound
    · intro i hi
      have := hs.2.2.2 i hi
      simpa [peAssembleEntries, Nat.mul_comm] using this
    · intro x hx
      simp only [peAssembleEntries, List.mem_map] at hx
      obtain ⟨d, hd, hdx⟩ := hx
      obtain ⟨e, he, hee⟩ := hs.2.2.1 d hd
      obtain ⟨d', hd', hne⟩ := hall e he
      rw [hee] at hd'
      cases hd'
      subst hdx
      cases d with
      | nil => exact absurd rfl hne
      | cons a l => simp
  · intro meta hpos hbound
    refine offsetsOK_of_form _ _ _ (icnsAssembleAux_length meta _) (by simp) ?_ ?_ hbound
    · intro i hi
      have := icnsAssembleAux_offset meta (6 + meta.length * 16) i hi
      simpa [icnsAssembleEntries, Nat.mul_comm] using this
    · intro x hx
      simp only [List.mem_map] at hx
      obtain ⟨y, hy, hyx⟩ := hx
      subst hyx
      exact hpos y hy

/-- Witness for C2 (amended) at concrete inputs: a resolving one-entry PE
group with a 3-byte payload, and a one-entry icns metadata list with a
5-byte payload. -/
theorem c2_amended_witness :
    containerOffsetsOK 1 (peAssembleEntries c2Ents (fun _ => some [1, 2, 3])).1
      ((peAssembleEntries c2Ents (fun _ => some [1, 2, 3])).2.map List.length) ∧
    containerOffsetsOK 1 (icnsAssembleEntries [(16, 16, 5)])
      ([(16, 16, 5)].map fun x => x.2.2) :=
  ⟨c2_amended.1 c2Ents (fun _ => some [1, 2, 3])
      (fun e _ => ⟨[1, 2, 3], rfl, by decide⟩) (by decide),
   c2_amended.2 [(16, 16, 5)] (by decide) (by decide)⟩

theorem adist_self (a : ℕ) : adist a a = 0 := by simp [adist]

theorem adist_pos_of_ne (a b : ℕ) (h : a ≠ b) : 0 < adist a b := by
  simp only [adist]
  omega

/-- Once the best distances reach `wdiff = 0`, no later entry can be selected:
the final index is the current `m`. -/
theorem selGo_absorb (dims : ℕ → ℕ × ℕ) (W H : ℕ) :
    ∀ (l : List ICONDIRENTRY) (i m hd bm : ℕ), selGo dims W H l i m 0 hd bm = m := by
  intro l
  induction l with
  | nil => intros; rfl
  | cons e rest ih =>
    intro i m hd bm
    simp only [selGo]
    split
    · rw [if_neg (by omega)]
      exact ih (i+1) m hd e.common.BitCount
    · exact ih (i+1) m hd bm

theorem effDimsAt_cons_succ (e : ICONDIRENTRY) (rest : List ICONDIRENTRY)
    (dims : ℕ → ℕ × ℕ) (i j : ℕ) :
    effDimsAt (e :: rest) dims i (j+1) = effDimsAt rest dims (i+1) j := by
  simp only [effDimsAt, List.getD_cons_succ]
  have : i + (j + 1) = i + 1 + j := by omega
  rw [this]

theorem effDimsAt_cons_zero (e : ICONDIRENTRY) (rest : List ICONDIRENTRY)
    (dims : ℕ → ℕ × ℕ) (i : ℕ) :
    effDimsAt (e :: rest) dims i 0 =
      (if e.common.Width = 0 ∨ e.common.Height = 0 then dims (i + 0)
       else (e.common.Width, e.common.Height)) := by
  simp [effDimsAt]

/-- If position `k` holds an entry with the exact stored target dimensions and
a maximal bit depth, and all earlier entries differ from the target in BOTH
effective dimensions, then the selection loop ends on index `i + k`. -/
theorem selGo_reach (dims : ℕ → ℕ × ℕ) (W H : ℕ) :
    ∀ (l : List ICONDIRENTRY) (k i m wd hd bm : ℕ),
      k < l.length → 0 < wd → 0 < hd → 0 < W → 0 < H →
      (l.getD k default).common.Width = W →
      (l.getD k default).common.Height = H →
      bm ≤ (l.getD k default).common.BitCount →
      (∀ j, j < l.length →
        (l.getD j default).common.BitCount ≤ (l.getD k default).common.BitCount) →
      (∀ j, j < k → (effDimsAt l dims i j).1 ≠ W ∧ (effDimsAt l dims i j).2 ≠ H) →
      selGo dims W H l i m wd hd bm = i + k := by
  intro l
  induction l with
  | nil => intro k i m wd hd bm hk; simp at hk
  | cons e rest ih =>
    intro k i m wd hd bm hk hwd hhd hW hH hWk hHk hbm hmax hpre
    cases k with
    | zero =>
      simp only [List.getD_cons_zero] at hWk hHk hbm
      simp only [selGo]
      rw [if_pos hbm]
      have hnz : ¬ (e.common.Width = 0 ∨ e.common.Height = 0) := by omega
      simp only [if_neg hnz]
      have hcond : adist e.common.Width W < wd ∧ adist e.common.Height H < hd := by
        rw [hWk, hHk, adist_self, adist_self]
        exact ⟨hwd, hhd⟩
      rw [if_pos hcond, hWk, adist_self, selGo_absorb]
      omega
    | succ k =>
      simp only [List.getD_cons_succ] at hWk hHk hbm
      have hk' : k < rest.length := by simpa using hk
      have hmax' : ∀ j, j < rest.length →
          (rest.getD j default).common.BitCount ≤ (rest.getD k default).common.BitCount := by
        intro j hj
        have := hmax (j+1) (by simpa using Nat.succ_lt_succ hj)
        simpa using this
      have hpre' : ∀ j, j < k →
          (effDimsAt rest dims (i+1) j).1 ≠ W ∧ (effDimsAt rest dims (i+1) j).2 ≠ H := by
        intro j hj
        have := hpre (j+1) (by omega)
        rwa [effDimsAt_cons_succ] at this
      have hbc : e.common.BitCount ≤ (rest.getD k default).common.BitCount := by
        have := hmax 0 (by simp)
        simpa using this
      have h0 := hpre 0 (by omega)
      rw [effDimsAt_cons_zero] at h0
      simp only [Nat.add_zero] at h0
      simp only [selGo]
      have goal1 : i + 1 + k = i + (k + 1) := by omega
      split
      · -- bm ≤ e.BitCount: the dimensions of e are computed and compared
        by_cases hz : e.common.Width = 0 ∨ e.common.Height = 0
        · simp only [if_pos hz]
          rw [if_pos hz] at h0
          split
          · rw [ih k (i+1) i (adist (dims i).1 W) (adist (dims i).2 H) e.common.BitCount
                hk' (adist_pos_of_ne _ _ h0.1) (adist_pos_of_ne _ _ h0.2)
                hW hH hWk hHk hbc hmax' hpre', goal1]
          · rw [ih k (i+1) m wd hd e.common.BitCount
                hk' hwd hhd hW hH hWk hHk hbc hmax' hpre', goal1]
        · simp only [if_neg hz]
          rw [if_neg hz] at h0
          split
          · rw [ih k (i+1) i (adist e.common.Width W) (adist e.common.Height H)
                e.common.BitCount hk' (adist_pos_of_ne _ _ h0.1)
                (adist_pos_of_ne _ _ h0.2) hW hH hWk hHk hbc hmax' hpre', goal1]
          · rw [ih k (i+1) m wd hd e.common.BitCount
                hk' hwd hhd hW hH hWk hHk hbc hmax' hpre', goal1]
      · rw [ih k (i+1) m wd hd bm hk' hwd hhd hW hH hWk hHk hbm hmax' hpre', goal1]

/-- C5 counterexample: with target 16×16, entry 0 is 16×32 and entry 1 is the
exact 16×16 match at the same (maximal) bit depth 32.  Entry 0 sets
`wdiff = 0, hdiff = 16`, after which the exact match cannot satisfy the
strict `adist < wdiff` test, so index 0 — whose dimensions are NOT the
target — stays selected even though entry 1 satisfies every premise of the
claim. -/
theorem c5_counterexample :
    selectEntry c5CEntries dims0 16 16 = 0 ∧
    (c5CEntries.getD 1 default).common.Width = 16 ∧
    (c5CEntries.getD 1 default).common.Height = 16 ∧
    (∀ j, j < c5CEntries.length →
      (c5CEntries.getD j default).common.BitCount ≤
        (c5CEntries.getD 1 default).common.BitCount) ∧
    effDims c5CEntries dims0 0 ≠ (16, 16) := by
  decide

/-- C5 (amended): the exact-match entry of maximal bit depth is selected
PROVIDED additionally that every earlier entry differs from the target in
BOTH effective dimensions (an earlier entry matching exactly one dimension
can lock in `wdiff = 0` or `hdiff = 0` and block the exact match, see the
counterexample). -/
theorem c5_amended (entries : List ICONDIRENTRY) (dims : ℕ → ℕ × ℕ) (W H k : ℕ)
    (hk : k < entries.length) (hW : 0 < W) (hH : 0 < H)
    (hWk : (entries.getD k default).common.Width = W)
    (hHk : (entries.getD k default).common.Height = H)
    (hmax : ∀ j, j < entries.length →
      (entries.getD j default).common.BitCount ≤
        (entries.getD k default).common.BitCount)
    (hpre : ∀ j, j < k → (effDims entries dims j).1 ≠ W ∧ (effDims entries dims j).2 ≠ H) :
    selectEntry entries dims W H = k := by
  have := selGo_reach dims W H entries k 0 0 0xFFFFF 0xFFFFF 0
    hk (by omega) (by omega) hW hH hWk hHk (by omega) hmax hpre
  simpa [selectEntry] using this

/-- Witness for C5 (amended): entry 0 differs from the 16×16 target in both
dimensions, entry 1 is the exact match at maximal depth and is selected. -/
theorem c5_amended_witness : selectEntry c5WEntries dims0 16 16 = 1 :=
  c5_amended c5WEntries dims0 16 16 1 (by decide) (by decide) (by decide)
    (by decide) (by decide) (by decide) (by decide)

/-- Bit-window extraction: ANDing with the mask `(2^k - 1) <<< a` selects the
`k` bits starting at bit `a`. -/
theorem land_mask_window (x a k : ℕ) :
    x &&& ((2^k - 1) <<< a) = ((x >>> a) % 2^k) <<< a := by
  apply Nat.eq_of_testBit_eq
  intro j
  rw [Nat.testBit_land, Nat.testBit_shiftLeft, Nat.testBit_shiftLeft]
  by_cases haj : a ≤ j
  · have hj : j ≥ a := haj
    simp only [hj, decide_True, Bool.true_and]
    rw [Nat.testBit_two_pow_sub_one, Nat.testBit_mod_two_pow, Nat.testBit_shiftRight]
    have hsum : a + (j - a) = j := by omega
    rw [hsum, Bool.and_comm]
  · have hj : ¬ (j ≥ a) := haj
    simp [hj]

/-- C9 counterexample: the claim says red comes from bits 15-11, green from
bits 10-5 and blue from bits 4-0, each expanded to an 8-bit channel and gated
by the mask.  Under the opaque mask `0xFFFFFFFF`: at `value = 0x8000` the
claimed red field (bits 15-11) is 16, yet the code's red channel is 0 (the
code masks bits 14-10); at `value = 0x001F` the claimed blue field (bits 4-0)
is maximal (31) yet the code's blue channel is 0, and the claimed green field
(bits 10-5) is 0 yet the code's green channel is 252. -/
theorem c9_counterexample :
    Convert16BitToARGB 0x8000 4294967295 = ⟨0, 0, 0, 255⟩ ∧
    0x8000 >>> 11 % 32 = 16 ∧
    Convert16BitToARGB 0x001F 4294967295 = ⟨0, 252, 0, 255⟩ ∧
    0x001F &&& 0x1F = 31 := by
  decide

/-- C9 (amended): what `Convert16BitToARGB` actually computes.  Under the
opaque mask (`GetMaskBit` = `0xFFFFFFFF`): the red channel is the 5-bit field
at bits 14-10 (NOT 15-11), expanded by `*8` and scaled by `255/256`; the
green channel is corrupted by the `uint8` truncation of a value positioned in
the high byte — it equals `(bits 9-4 of value) * 1020 mod 256`; the blue
channel is always 0; alpha is always forced opaque.  Under the zero mask all
channels are 0 with alpha opaque. -/
theorem c9_amended (value : ℕ) :
    Convert16BitToARGB value 4294967295 =
      ⟨value / 1024 % 32 * 8 * 255 / 256, value / 16 % 64 * 1020 % 256, 0, 255⟩ ∧
    Convert16BitToARGB value 0 = ⟨0, 0, 0, 255⟩ := by
  constructor
  · unfold Convert16BitToARGB
    have hm1 : ((4294967295 : ℕ) >>> 16) &&& 0xFF = 255 := by decide
    have hm2 : ((4294967295 : ℕ) >>> 8) &&& 0xFF = 255 := by decide
    have hm3 : (4294967295 : ℕ) &&& 0xFF = 255 := by decide
    rw [hm1, hm2, hm3]
    rw [show (0xF8 : ℕ) = (2^5 - 1) <<< 3 from by decide,
        show (0xFC00 : ℕ) = (2^6 - 1) <<< 10 from by decide,
        show (0xF80000 : ℕ) = (2^5 - 1) <<< 19 from by decide]
    rw [land_mask_window, land_mask_window, land_mask_window]
    simp only [Nat.shiftLeft_eq, Nat.shiftRight_eq_div_pow]
    norm_num
    refine ⟨?_, ?_, ?_⟩
    · have h1 : value / 128 / 8 = value / 1024 := by omega
      rw [h1, Nat.mod_eq_of_lt (by omega)]
    · have h2 : value * 64 % 65536 / 1024 % 64 = value / 16 % 64 := by omega
      rw [h2]
      have h2b : value / 16 % 64 * 1024 * 255 / 256 = value / 16 % 64 * 1020 := by omega
      rw [h2b]
    · have h3 : value * 524288 % 4294967296 / 524288 % 32 = value % 32 := by omega
      rw [h3]
      have h3b : value % 32 * 524288 * 255 / 256 = value % 32 * 522240 := by omega
      rw [h3b]
      omega
  · simp [Convert16BitToARGB]

/-- Combined induction over the mutual walker: a successful walk only ever
returns resources whose data is an in-bounds slice of the input buffer. -/
theorem parse_bounds_aux : ∀ fuel : ℕ,
    (∀ (b : List ℕ) (virt p : ℕ) (pfx : String) (res : List Resource),
      parseDir b virt fuel p pfx = some res → ∀ r ∈ res, dataInBounds b r.Data) ∧
    (∀ (b : List ℕ) (virt p : ℕ) (pfx : String) (n i : ℕ) (res : List Resource),
      parseDirEntries b virt fuel p pfx n i = some res → ∀ r ∈ res, dataInBounds b r.Data) := by
  intro fuel
  induction fuel with
  | zero =>
    constructor
    · intro b virt p pfx res h
      simp [parseDir] at h
    · intro b virt p pfx n i res h
      simp [parseDirEntries] at h
  | succ fuel ih =>
    obtain ⟨ihD, ihE⟩ := ih
    constructor
    · intro b virt p pfx res h r hr
      rw [parseDir] at h
      split at h
      · cases h
        simp at hr
      · split at h
        · exact ihE b virt p pfx _ 0 res h r hr
        · cases h
    · intro b virt p pfx n i res h r hr
      rw [parseDirEntries] at h
      split at h
      · cases h
        simp at hr
      · split at h
        · split at h
          · cases h
          · split at h
            · -- subdirectory branch
              split at h
              · split at h
                · cases h
                  rcases List.mem_append.1 hr with hm | hm
                  · exact ihD b virt _ _ _ (by assumption) r hm
                  · exact ihE b virt p pfx n (i+1) _ (by assumption) r hm
                · cases h
              · cases h
            · -- leaf branch
              split at h
              · split at h
                · split at h
                  · cases h
                    rcases List.mem_cons.1 hr with hm | hm
                    · subst hm
                      exact ⟨_, _, by assumption⟩
                    · exact ihE b virt p pfx n (i+1) _ (by assumption) r hm
                  · cases h
                · cases h
              · cases h
        · cases h

/-- C3: every byte read of the walker (directory headers, entry records, name
strings, data-entry records and the final data slice) is bounds-checked, and
any offset resolving outside the buffer aborts the WHOLE walk with `none`
(the Go out-of-range panic), never a partial list: consequently, whenever the
walk returns a resource list at all, every returned resource's data is an
in-bounds slice of the input buffer. -/
theorem c3_parseDir_bounds (fuel : ℕ) (b : List ℕ) (virt p : ℕ) (pfx : String)
    (res : List Resource) (h : parseDir b virt fuel p pfx = some res) :
    ∀ r ∈ res, dataInBounds b r.Data :=
  (parse_bounds_aux fuel).1 b virt p pfx res h

/-- Witness for C3 at a concrete resource section: the walk of `B34` returns
exactly the resource `"3"` with data `[7, 9]`, which is an in-bounds slice. -/
theorem c3_witness : dataInBounds B34 [7, 9] :=
  c3_parseDir_bounds 3 B34 0 0 "" [⟨"3", [7, 9]⟩] (by decide) ⟨"3", [7, 9]⟩ (by decide)

end Fico
